import Mathlib

/-!
Verification of the quant stock-data synchronizer, a shallow embedding of
`database.py`, `data_fetcher.py`, `auto_updater.py` and `main.py`.

Modelling conventions:
* SQLite cells are dynamically typed; `Val` covers the shapes the program
  stores (text, integers, NULL).  Prices and dates are embedded as integers:
  the program compares dates as equal-width `YYYYMMDD` strings, whose
  lexicographic order agrees with the order of the days they denote, and
  `timedelta(days=1)` is `+ 1` on day numbers.
* A pandas `DataFrame` is a list of column names plus rows of cells (`Frame`).
* Provider calls (`akshare`) may raise; an `Oracle` gives the outcome of each
  underlying attempt, indexed by the attempt number seen by the `@retry`
  decorator.  Exceptions carry no information we need, hence `Except Unit`.
-/

namespace Quant

/-- A SQLite/pandas cell value. -/
inductive Val where
  | s (v : String)
  | i (v : Int)
  | null
deriving Repr, DecidableEq

/-- A pandas DataFrame: column names plus rows of cells. -/
structure Frame where
  cols : List String
  rows : List (List Val)
deriving Repr, DecidableEq

/-- Pandas DataFrames are rectangular: every row has one cell per column. -/
def Frame.WF (f : Frame) : Prop :=
  ∀ r ∈ f.rows, r.length = f.cols.length

/-- A row of the `stock_info` table as the orchestrator uses it
(`code`/`name`; the enrichment columns carry no claim-relevant logic). -/
structure Instr where
  code : String
  name : String
deriving Repr, DecidableEq

/-- One stored row of the `stock_prices` table: the eight columns named by
`save_stock_prices`'s INSERT statement (`database.py` line 130).  The
AUTOINCREMENT `id` column carries no information.  `open` is a Lean keyword,
hence the `V` suffixes. -/
structure PriceRow where
  code : Val
  date : Val
  openV : Val
  highV : Val
  lowV : Val
  closeV : Val
  volume : Val
  amount : Val
deriving Repr, DecidableEq

/-- The database state: the three tables the synchronizer writes.
(`model_training_records` and `user_feedback` are passive and untouched.) -/
structure DB where
  stock_info : List Instr
  stock_prices : List PriceRow
  stock_concepts : List (String × String)
deriving Repr, DecidableEq

/-- The freshly initialised database (`init_database` creates empty tables). -/
def dbEmpty : DB := ⟨[], [], []⟩

/-! ## Connection/transaction model

`StockDatabase.get_connection` opens a connection per logical operation and
closes it on every exit path.  SQLite semantics: work becomes durable only at
`commit`; closing a connection (or the rollback performed by pandas'
`with self.con:` transaction scope on error) discards uncommitted work. -/

/-- A connection's view of one table: the committed contents and the
contents as seen inside the current transaction. -/
structure TableConn (α : Type) where
  committed : List α
  pending : List α
deriving Repr, DecidableEq

/-- Open a connection over a table currently holding `t`. -/
def TableConn.start (t : List α) : TableConn α := ⟨t, t⟩

/-- `DELETE FROM <table>` (no WHERE clause). -/
def TableConn.deleteAll (c : TableConn α) : TableConn α := { c with pending := [] }

/-- `conn.commit()`. -/
def TableConn.commit (c : TableConn α) : TableConn α := { c with committed := c.pending }

/-- A single `INSERT` of one row. -/
def TableConn.insertRow (c : TableConn α) (r : α) : TableConn α :=
  { c with pending := c.pending ++ [r] }

/-- `conn.rollback()`: discard uncommitted work. -/
def TableConn.rollback (c : TableConn α) : TableConn α := { c with pending := c.committed }

/-- `conn.close()`: only committed contents survive. -/
def TableConn.close (c : TableConn α) : List α := c.committed

/-- `StockDatabase.save_stock_info` (`database.py` lines 103-117): inside one
connection it executes `DELETE FROM stock_info`, immediately commits that
delete, then appends the new rows with `DataFrame.to_sql`, which runs its
batch of inserts inside one transaction and rolls that batch back if an
insert raises; the exception is re-raised and the connection closes.
`failAt = some k` means the environment makes the insert of row `k` raise
(disk error, type error, ...); `none` means every insert succeeds.
Returns the outcome and the table contents visible after the call. -/
def save_stock_info (failAt : Option Nat) (rows stored : List Instr) :
    Except Unit Unit × List Instr :=
  let c1 := (TableConn.start stored).deleteAll.commit
  match failAt with
  | some k =>
    if k < rows.length then
      let cPart := (rows.take k).foldl TableConn.insertRow c1
      (.error (), cPart.rollback.close)
    else
      (.ok (), ((rows.foldl TableConn.insertRow c1).commit).close)
  | none => (.ok (), ((rows.foldl TableConn.insertRow c1).commit).close)

/-- Positional binding of one value tuple to the eight columns named by the
INSERT statement: SQLite binds the i-th placeholder to the i-th named column. -/
def toPriceRow (r : List Val) : PriceRow :=
  { code := r.getD 0 .null, date := r.getD 1 .null, openV := r.getD 2 .null,
    highV := r.getD 3 .null, lowV := r.getD 4 .null, closeV := r.getD 5 .null,
    volume := r.getD 6 .null, amount := r.getD 7 .null }

/-- `INSERT OR REPLACE` against `UNIQUE(code, date)`: a conflicting stored row
is deleted and the new row inserted. -/
def upsertPrice (t : List PriceRow) (q : PriceRow) : List PriceRow :=
  t.filter (fun s => !decide (s.code = q.code ∧ s.date = q.date)) ++ [q]

/-- `StockDatabase.save_stock_prices` (`database.py` lines 119-142): on a
non-empty frame it builds
`INSERT OR REPLACE INTO stock_prices (code, date, open, high, low, close,
volume, amount) VALUES (<one ? per DataFrame column>)`.
When the placeholder count differs from the eight named columns SQLite
rejects the statement at prepare time (OperationalError) before any row is
touched; the exception is re-raised and, nothing having been committed, the
table is unchanged.  Otherwise every tuple is bound positionally and
upserted, and the batch commits. -/
def save_stock_prices (f : Frame) (db : DB) : Except Unit DB :=
  if f.rows.isEmpty then .ok db
  else if f.cols.length = 8 then
    .ok { db with
          stock_prices := f.rows.foldl (fun t r => upsertPrice t (toPriceRow r)) db.stock_prices }
  else .error ()

/-- Plain `INSERT`s of `(code, concept)` pairs against `PRIMARY KEY (code,
concept)`: the first duplicate key raises IntegrityError and the surrounding
transaction (pandas `to_sql`) rolls the whole batch back. -/
def insertConcepts (t : List (String × String)) :
    List (String × String) → Except Unit (List (String × String))
  | [] => .ok t
  | r :: rs => if t.contains r then .error () else insertConcepts (t ++ [r]) rs

/-- `StockDatabase.save_stock_concepts` (`database.py` lines 144-154): despite
the comment claiming `INSERT OR REPLACE`, it calls
`to_sql(..., if_exists='append')`, which issues plain `INSERT`s; a duplicate
`(code, concept)` key aborts the batch and the exception is re-raised. -/
def save_stock_concepts (rows : List (String × String)) (db : DB) : Except Unit DB :=
  if rows.isEmpty then .ok db
  else
    match insertConcepts db.stock_concepts rows with
    | .ok t => .ok { db with stock_concepts := t }
    | .error e => .error e

/-! ## DataFetcher: frame post-processing (`data_fetcher.py` lines 139-162) -/

/-- `column_mapping` (`data_fetcher.py` lines 141-145): provider column names
renamed to canonical ones. -/
def column_mapping : List (String × String) :=
  [("日期", "date"), ("开盘", "open"), ("最高", "high"), ("最低", "low"),
   ("收盘", "close"), ("成交量", "volume"), ("成交额", "amount"),
   ("涨跌幅", "pct_change"), ("换手率", "turnover_rate")]

/-- `df.rename(columns=existing_columns)`: map each column name through the
mapping, leaving unknown names unchanged. -/
def renameCols (cs : List String) : List String :=
  cs.map (fun c => ((column_mapping.lookup c).getD c))

/-- First index of a column name (`len cols` when absent). -/
def colIdx (cols : List String) (name : String) : Nat :=
  cols.findIdx (fun c => decide (c = name))

/-- `df[name] = v` with a constant `v`: overwrite the column if present,
otherwise append it at the end. -/
def setColumn (f : Frame) (name : String) (v : Val) : Frame :=
  if f.cols.contains name then
    { cols := f.cols, rows := f.rows.map (fun r => r.set (colIdx f.cols name) v) }
  else
    { cols := f.cols ++ [name], rows := f.rows.map (fun r => r ++ [v]) }

/-- `df[sel]`: reorder/select columns by name. -/
def projectCols (f : Frame) (sel : List String) : Frame :=
  { cols := sel,
    rows := f.rows.map (fun r => sel.map (fun c => r.getD (colIdx f.cols c) Val.null)) }

def required_columns : List String :=
  ["code", "date", "open", "high", "low", "close", "volume"]

def optional_price_columns : List String :=
  ["amount", "pct_change", "turnover_rate"]

/-- The body of `fetch_stock_prices` after the provider call
(`data_fetcher.py` lines 139-168): on a non-empty response, rename the
provider columns, assign the `code` column, compute `available_columns`
(the required columns present at that point), add each still-missing
required column as NULL, and select `available_columns` plus whichever of
`amount`/`pct_change`/`turnover_rate` exist.  An empty response is returned
unchanged. -/
def fetch_post (code : String) (raw : Frame) : Frame :=
  if raw.rows.isEmpty then raw
  else
    let df1 : Frame := { cols := renameCols raw.cols, rows := raw.rows }
    let df2 := setColumn df1 "code" (.s code)
    let available := required_columns.filter (fun c => df2.cols.contains c)
    let df3 := required_columns.foldl
      (fun f c => if f.cols.contains c then f else setColumn f c .null) df2
    let sel := available ++ optional_price_columns.filter (fun c => df3.cols.contains c)
    projectCols df3 sel

/-- `list(set(concepts))[:10]` and the `(code, concept)` frame built from it
(`data_fetcher.py` lines 209-218); an empty extraction yields no rows. -/
def conceptRows (code : String) (names : List String) : List (String × String) :=
  (names.dedup.take 10).map (fun n => (code, n))

/-! ## Retry policy (`@retry(Exception, tries=3, delay=2, backoff=2)`) -/

/-- Arguments of the `retry` decorator: total attempt count, initial delay,
backoff factor. -/
structure RetryConf where
  tries : Nat
  delay : Nat
  backoff : Nat
deriving Repr, DecidableEq

/-- What one decorated call did: its outcome, how many times the wrapped
body ran, and the sleeps performed between attempts. -/
structure RetryTrace (α : Type) where
  result : Except Unit α
  attempts : Nat
  delays : List Nat
deriving Repr

/-- The `retry` library loop: run the body; on an exception decrement the
remaining tries, re-raise when none remain, otherwise sleep the current
delay, multiply it by the backoff, and loop.  `i` indexes the attempts. -/
def retryAux (op : Nat → Except Unit α) (i : Nat) : Nat → Nat → Nat → RetryTrace α
  | 0, _, _ => ⟨.error (), 0, []⟩
  | 1, _, _ => ⟨op i, 1, []⟩
  | t + 2, d, b =>
    match op i with
    | .ok a => ⟨.ok a, 1, []⟩
    | .error _ =>
      let rest := retryAux op (i + 1) (t + 1) (d * b) b
      ⟨rest.result, rest.attempts + 1, d :: rest.delays⟩

def retryCall (op : Nat → Except Unit α) (c : RetryConf) : RetryTrace α :=
  retryAux op 0 c.tries c.delay c.backoff

/-- `DataFetcher.__init__` (`data_fetcher.py` lines 20-23) stores the
constructor's `max_retries` and `retry_delay` on the instance. -/
structure DataFetcher where
  max_retries : Nat := 3
  retry_delay : Nat := 5
deriving Repr, DecidableEq

/-- The decorator arguments are fixed at class-definition time
(`data_fetcher.py` lines 25, 101, 173): `tries=3, delay=2, backoff=2`.
They never read the instance's `max_retries`/`retry_delay`. -/
def retryConf : RetryConf := ⟨3, 2, 2⟩

/-! ## Provider oracle and the fetch methods -/

/-- Date-range selection of `fetch_stock_prices` (`data_fetcher.py` lines
107-128).  Dates are day numbers; `historyFloor` stands for the constant
`"19900101"`. -/
def historyFloor : Int := 0

inductive Period where
  | oneYear
  | threeYear
  | fiveYear
  | all
  | custom (startD endD : Int)
deriving Repr, DecidableEq

def resolveRange (today : Int) : Period → Int × Int
  | .oneYear => (today - 365, today)
  | .threeYear => (today - 1095, today)
  | .fiveYear => (today - 1825, today)
  | .all => (historyFloor, today)
  | .custom s e => (s, e)

/-- Outcomes of the underlying provider calls, per attempt index.  The body
of `fetch_stock_list` (feed merging and enrichment, `data_fetcher.py` lines
26-99) carries no claim-relevant logic and is abstracted as one attempt
yielding an instrument list; a price attempt sees the requested date range;
a concept attempt yields the extracted concept-name list. -/
structure Oracle where
  listAttempt : Nat → Except Unit (List Instr)
  priceAttempt : String → Int × Int → Nat → Except Unit Frame
  conceptAttempt : String → Nat → Except Unit (List String)

/-- `DataFetcher.fetch_stock_list` under its `@retry` decorator.  The
`DataFetcher` instance is a parameter only to record that its configuration
fields are never consulted. -/
def fetch_stock_list (_F : DataFetcher) (o : Oracle) : Except Unit (List Instr) :=
  (retryCall o.listAttempt retryConf).result

/-- `DataFetcher.fetch_stock_prices` under `@retry`: resolve the date range
from `period`, call the provider for exactly that range, and post-process a
successful response. -/
def fetch_stock_prices (_F : DataFetcher) (o : Oracle) (today : Int)
    (code : String) (period : Period) : Except Unit Frame :=
  match (retryCall (o.priceAttempt code (resolveRange today period)) retryConf).result with
  | .ok raw => .ok (fetch_post code raw)
  | .error e => .error e

/-- `DataFetcher.fetch_stock_concepts` under `@retry`: dedup and cap the
extracted names and shape them into `(code, concept)` rows. -/
def fetch_stock_concepts (_F : DataFetcher) (o : Oracle) (code : String) :
    Except Unit (List (String × String)) :=
  match (retryCall (o.conceptAttempt code) retryConf).result with
  | .ok names => .ok (conceptRows code names)
  | .error e => .error e

/-! ## Orchestrator (`DataFetcher.update_all_data`,
`StockDataUpdater.download_all_stocks_data`) -/

/-- Externally visible requests issued during a run. -/
inductive Event where
  | watermarkQuery
  | priceReq (code : String) (startD endD : Int)
  | conceptReq (code : String)
deriving Repr, DecidableEq

/-- Accumulated run state: database, the run summary counters, and the
request trace. -/
structure RunState where
  db : DB
  success : Nat := 0
  failed : Nat := 0
  trace : List Event := []
deriving Repr, DecidableEq

/-- `StockDataUpdater.__init__` builds `DataFetcher(self.db)`, so the
decorator-independent configuration fields keep their defaults. -/
def defaultFetcher : DataFetcher := {}

/-- The per-instrument price branch shared by `update_all_data` (lines
264-270) and the incremental loop (lines 90-97 / 101-106 of
`auto_updater.py`): fetch under retry; on a non-empty result save it; any
exception from the fetch or the save is caught by the enclosing
`try/except`, logged, and absorbed. -/
def priceBranch (o : Oracle) (today : Int) (p : Period) (st : RunState)
    (code : String) : RunState :=
  let r := resolveRange today p
  let st1 := { st with trace := st.trace ++ [Event.priceReq code r.1 r.2] }
  match fetch_stock_prices defaultFetcher o today code p with
  | .ok f =>
    if f.rows.isEmpty then st1
    else
      match save_stock_prices f st1.db with
      | .ok db2 => { st1 with db := db2 }
      | .error _ => st1
  | .error _ => st1

/-- The per-instrument concept branch (`data_fetcher.py` lines 272-278,
`auto_updater.py` lines 108-114): fetch under retry; save a non-empty
result; any exception is caught and absorbed. -/
def conceptBranch (o : Oracle) (st : RunState) (code : String) : RunState :=
  let st1 := { st with trace := st.trace ++ [Event.conceptReq code] }
  match fetch_stock_concepts defaultFetcher o code with
  | .ok rows =>
    if rows.isEmpty then st1
    else
      match save_stock_concepts rows st1.db with
      | .ok db2 => { st1 with db := db2 }
      | .error _ => st1
  | .error _ => st1

/-- One iteration of the `update_all_data` loop (`data_fetcher.py` lines
255-290).  The price and concept branches swallow their own exceptions, and
nothing else in the body can raise, so the iteration always ends at
`success_count += 1`; the outer `except` that would increment
`failed_count` is unreachable. -/
def stepFull (o : Oracle) (today : Int) (p : Period) (st : RunState)
    (code : String) : RunState :=
  let st2 := conceptBranch o (priceBranch o today p st code) code
  { st2 with success := st2.success + 1 }

/-- `DataFetcher.update_all_data` (`data_fetcher.py` lines 226-295): fetch
the catalog under retry — on failure or an empty result log and return with
nothing written — else replace `stock_info`, then loop over the first
`stock_limit` instruments (a falsy limit, `None` or `0`, means all).
The Python function always returns `None` and never raises. -/
def update_all_data (o : Oracle) (today : Int) (stock_limit : Option Nat)
    (price_period : Period) (db : DB) : RunState :=
  match fetch_stock_list defaultFetcher o with
  | .error _ => { db := db }
  | .ok stock_list =>
    if stock_list.isEmpty then { db := db }
    else
      let db1 := { db with stock_info := (save_stock_info none stock_list db.stock_info).2 }
      let stocks := match stock_limit with
        | some (n + 1) => stock_list.take (n + 1)
        | _ => stock_list
      (stocks.map Instr.code).foldl (stepFull o today price_period) { db := db1 }

/-- Modelled from the spec: `StockDatabase.get_all_stocks_latest_dates` is
called by `download_all_stocks_data` (`auto_updater.py` line 55) but is not
defined in the source files.  Per the spec's Watermark Resolver contract
(§4.1) it returns, in one bulk query, each instrument code paired with its
latest stored price date, with codes absent when they have no rows.
`updateMax` folds one stored row into the accumulator. -/
def updateMax (acc : List (String × Int)) (c : String) (d : Int) :
    List (String × Int) :=
  match acc with
  | [] => [(c, d)]
  | (c', m) :: rest =>
    if c' = c then (c', max m d) :: rest else (c', m) :: updateMax rest c d

/-- One row of the bulk watermark query's aggregation: rows whose `code` is
not text or whose `date` is not an integer day carry no watermark
information and are skipped. -/
def wmStep (acc : List (String × Int)) (r : PriceRow) : List (String × Int) :=
  match r.code, r.date with
  | .s c, .i d => updateMax acc c d
  | _, _ => acc

/-- Modelled from the spec: the bulk watermark query (see `updateMax` and
`wmStep`). -/
def get_all_stocks_latest_dates (db : DB) : List (String × Int) :=
  db.stock_prices.foldl wmStep []

/-- First-match association lookup (the Python dict built on
`auto_updater.py` line 58; `get_all_stocks_latest_dates` yields each code
once, so first-match equals dict semantics). -/
def lookupCode (m : List (String × Int)) (c : String) : Option Int :=
  match m with
  | [] => none
  | (c', d) :: rest => if c' = c then some d else lookupCode rest c

/-- One iteration of the incremental loop (`auto_updater.py` lines 66-126):
with a watermark `w`, fetch `[w+1, today]` unless `w + 1 > today` (then no
price fetch); without one, fetch the configured `price_period`; concepts
are always refreshed; the branches absorb their own failures and the
iteration ends at `success_count += 1`. -/
def stepIncr (o : Oracle) (today : Int) (latest : List (String × Int))
    (p : Period) (st : RunState) (code : String) : RunState :=
  let st1 :=
    match lookupCode latest code with
    | some w =>
      if w + 1 ≤ today then priceBranch o today (Period.custom (w + 1) today) st code
      else st
    | none => priceBranch o today p st code
  let st2 := conceptBranch o st1 code
  { st2 with success := st2.success + 1 }

/-- `StockDataUpdater.download_all_stocks_data` (`auto_updater.py` lines
29-135).  Non-incremental mode delegates to `update_all_data` — which
handles all its failures internally — and then returns `True`.  Incremental
mode fetches the catalog itself: a retry-exhausted fetch raises into the
outer `except` and returns `False`, an empty catalog returns `False`;
otherwise it replaces `stock_info`, performs the bulk watermark query, runs
the incremental loop, and returns `True`. -/
def download_all_stocks_data (o : Oracle) (today : Int) (price_period : Period)
    (incremental : Bool) (db : DB) : Bool × RunState :=
  if !incremental then
    (true, update_all_data o today none price_period db)
  else
    match fetch_stock_list defaultFetcher o with
    | .error _ => (false, { db := db })
    | .ok stock_list =>
      if stock_list.isEmpty then (false, { db := db })
      else
        let db1 := { db with stock_info := (save_stock_info none stock_list db.stock_info).2 }
        let latest := get_all_stocks_latest_dates db1
        let st0 : RunState := { db := db1, trace := [Event.watermarkQuery] }
        (true, (stock_list.map Instr.code).foldl (stepIncr o today latest price_period) st0)

/-! ## Derived notions used by the statements -/

/-- The column list named by `save_stock_prices`'s INSERT statement. -/
def insert_columns : List String :=
  ["code", "date", "open", "high", "low", "close", "volume", "amount"]

/-- The uniqueness invariant of the `stock_prices` table:
no two stored rows share a `(code, date)` key. -/
def keysUnique (t : List PriceRow) : Prop :=
  t.Pairwise (fun r s => ¬(r.code = s.code ∧ r.date = s.date))

/-- A sequence of `save_stock_prices` calls as callers make them: a call that
raises leaves the table unchanged and the caller proceeds. -/
def runSaves (fs : List Frame) (db : DB) : DB :=
  fs.foldl (fun d f => match save_stock_prices f d with | .ok d2 => d2 | .error _ => d) db

/-- The net contribution of one saved batch: its tuples upserted into an
empty table (last write per `(code, date)` key wins). -/
def lastWins (rows : List (List Val)) : List PriceRow :=
  rows.foldl (fun t r => upsertPrice t (toPriceRow r)) []

/-- The eight-column value tuple of a stored row, inverse to `toPriceRow`. -/
def rowOf (q : PriceRow) : List Val :=
  [q.code, q.date, q.openV, q.highV, q.lowV, q.closeV, q.volume, q.amount]

/-- A one-row price frame carrying exactly the eight INSERT columns. -/
def frameOf (q : PriceRow) : Frame := ⟨insert_columns, [rowOf q]⟩

/-- The dates a row list stores for one code (what "the maximum stored
price date" ranges over). -/
def datesIn (rs : List PriceRow) (x : String) : List Int :=
  rs.filterMap
    (fun r =>
      match r.code, r.date with
      | .s c, .i d => if c = x then some d else none
      | _, _ => none)

/-- The dates the database stores for one code. -/
def datesFor (db : DB) (x : String) : List Int :=
  datesIn db.stock_prices x

/-- The requests one incremental-loop iteration issues for its instrument. -/
def stepIncrEvents (today : Int) (latest : List (String × Int)) (p : Period)
    (code : String) : List Event :=
  (match lookupCode latest code with
   | some w => if w + 1 ≤ today then [Event.priceReq code (w + 1) today] else []
   | none => [Event.priceReq code (resolveRange today p).1 (resolveRange today p).2])
  ++ [Event.conceptReq code]

/-- The requests one full-mode iteration issues for its instrument. -/
def stepFullEvents (today : Int) (p : Period) (code : String) : List Event :=
  [Event.priceReq code (resolveRange today p).1 (resolveRange today p).2,
   Event.conceptReq code]

def isWatermark : Event → Bool
  | .watermarkQuery => true
  | _ => false

/-- Recognises a price request for instrument `x`. -/
def isPriceReqFor (x : String) : Event → Bool
  | .priceReq c _ _ => decide (c = x)
  | _ => false

/-! ## Concrete gadgets for counterexamples and witnesses -/

/-- A provider whose every attempt raises. -/
def oFailAll : Oracle :=
  ⟨fun _ => .error (), fun _ _ _ => .error (), fun _ _ => .error ()⟩

/-- A full provider response: all nine columns including `成交额` (amount),
`涨跌幅` (pct_change) and `换手率` (turnover_rate). -/
def rawFull : Frame :=
  { cols := ["日期", "开盘", "最高", "最低", "收盘", "成交量", "成交额", "涨跌幅", "换手率"],
    rows := [[.i 5, .i 10, .i 11, .i 9, .i 10, .i 1000, .i 50, .i 3, .i 2]] }

/-- A provider response lacking `成交额` (amount) but carrying `涨跌幅`
(pct_change): post-processing keeps eight columns. -/
def rawNoAmount : Frame :=
  { cols := ["日期", "开盘", "最高", "最低", "收盘", "成交量", "涨跌幅"],
    rows := [[.i 5, .i 10, .i 11, .i 9, .i 10, .i 1000, .i 3]] }

/-- Seven-column provider response (no optional columns at all): its
post-processed frame has exactly the eight INSERT columns. -/
def rawPlain (d : Int) : Frame :=
  { cols := ["日期", "开盘", "最高", "最低", "收盘", "成交量", "成交额"],
    rows := [[.i d, .i 10, .i 11, .i 9, .i 10, .i 1000, .i 50]] }

/-- The failure-isolation scenario: a three-instrument catalog where every
price attempt for `"B"` raises while `"A"` and `"C"` respond with plain
frames; concept attempts return nothing. -/
def oABC : Oracle :=
  ⟨fun _ => .ok [⟨"A", "a"⟩, ⟨"B", "b"⟩, ⟨"C", "c"⟩],
   fun c _ _ => if c = "B" then .error () else .ok (rawPlain 5),
   fun _ _ => .ok []⟩

/-- Fifteen distinct concept names, for the concept-cap witness. -/
def names15 : List String :=
  ["n01", "n02", "n03", "n04", "n05", "n06", "n07", "n08", "n09", "n10",
   "n11", "n12", "n13", "n14", "n15"]

/-- A provider whose concept feed yields the fifteen distinct names. -/
def oConcept15 : Oracle :=
  ⟨fun _ => .ok [], fun _ _ _ => .error (), fun _ _ => .ok names15⟩

/-- A one-instrument catalog with a stored watermark, for the incremental
window witness: code `"A"` has price rows dated 7 and 9. -/
def dbWatermark : DB :=
  { stock_info := [],
    stock_prices :=
      [⟨.s "A", .i 7, .null, .null, .null, .null, .null, .null⟩,
       ⟨.s "A", .i 9, .null, .null, .null, .null, .null, .null⟩],
    stock_concepts := [] }

/-- A provider serving the one-instrument catalog `["A"]`. -/
def oSingleA : Oracle :=
  ⟨fun _ => .ok [⟨"A", "a"⟩],
   fun _ _ _ => .ok (rawPlain 10),
   fun _ _ => .ok []⟩

/-- Two stored-row values sharing the `(code, date)` key with different
closes, for the upsert witness. -/
def rowDup1 : PriceRow :=
  ⟨.s "600000", .i 2, .i 9, .i 12, .i 8, .i 10, .i 1000, .i 50⟩

def rowDup2 : PriceRow :=
  ⟨.s "600000", .i 2, .i 9, .i 12, .i 8, .i 11, .i 1000, .i 50⟩

/-! ## Retry-policy lemmas -/

theorem retryCall3_allFail {α : Type} (op : Nat → Except Unit α)
    (h0 : op 0 = .error ()) (h1 : op 1 = .error ()) (h2 : op 2 = .error ()) :
    retryCall op retryConf = ⟨.error (), 3, [2, 4]⟩ := by
  simp [retryCall, retryConf, retryAux, h0, h1, h2]

/-! ## Connection-model lemmas -/

theorem foldl_insertRow_committed (rs : List α) (c : TableConn α) :
    (rs.foldl TableConn.insertRow c).committed = c.committed := by
  induction rs generalizing c with
  | nil => rfl
  | cons r rs ih => simpa [TableConn.insertRow] using ih _

theorem foldl_insertRow_pending (rs : List α) (c : TableConn α) :
    (rs.foldl TableConn.insertRow c).pending = c.pending ++ rs := by
  induction rs generalizing c with
  | nil => simp
  | cons r rs ih => simp [TableConn.insertRow, ih]

/-- `C3` (corrected claim): `save_stock_info` commits the `DELETE FROM
stock_info` before the insert batch begins, so a mid-batch insert failure
leaves the table empty: no partial slice of the new batch is visible (the
batch's transaction rolls back), but the instrument rows stored before the
refresh are lost rather than preserved.  On success the new batch fully
replaces the old contents. -/
theorem save_stock_info_delete_commits_first (rows stored : List Instr) (k : Nat)
    (hk : k < rows.length) :
    save_stock_info (some k) rows stored = (.error (), []) ∧
    save_stock_info none rows stored = (.ok (), rows) := by
  constructor
  · simp [save_stock_info, hk, TableConn.close, TableConn.rollback,
      foldl_insertRow_committed, TableConn.commit, TableConn.deleteAll, TableConn.start]
  · simp [save_stock_info, TableConn.close, TableConn.commit,
      foldl_insertRow_pending, TableConn.deleteAll, TableConn.start]

/-- Witness for `C3`: refreshing a catalog of one stored instrument with a
one-row batch whose insert raises at row 0 yields an error and an empty
table; the failure-free refresh stores exactly the new batch. -/
theorem save_stock_info_delete_commits_first_witness :
    save_stock_info (some 0) [⟨"600001", "B"⟩] [⟨"600000", "A"⟩] = (.error (), []) ∧
    save_stock_info none [⟨"600001", "B"⟩] [⟨"600000", "A"⟩] = (.ok (), [⟨"600001", "B"⟩]) :=
  save_stock_info_delete_commits_first [⟨"600001", "B"⟩] [⟨"600000", "A"⟩] 0 (by decide)

/-- `C3` counterexample: with instrument `600000` stored, a refresh whose
insert batch raises mid-way returns an error and leaves the table empty —
the row stored before the refresh is not present afterwards, contrary to
the claim. -/
theorem save_stock_info_old_rows_lost :
    save_stock_info (some 0) [⟨"600001", "B"⟩] [⟨"600000", "A"⟩] = (.error (), []) ∧
    (⟨"600000", "A"⟩ : Instr) ∉ (save_stock_info (some 0) [⟨"600001", "B"⟩] [⟨"600000", "A"⟩]).2 := by
  refine ⟨rfl, ?_⟩
  decide

/-- `C6` (code bug): `save_stock_concepts` issues plain `INSERT`s (despite
its comment claiming `INSERT OR REPLACE`), so a duplicate `(code, concept)`
key — repeated within the batch, or already stored from an earlier fetch —
raises instead of being absorbed, and the error reaches the caller. -/
theorem save_stock_concepts_duplicate_raises :
    save_stock_concepts [("600000", "AI"), ("600000", "AI")] dbEmpty = .error () ∧
    save_stock_concepts [("600000", "AI")]
      { dbEmpty with stock_concepts := [("600000", "AI")] } = .error () := by
  constructor <;> rfl

/-- `C8` counterexample: a `DataFetcher` constructed with `max_retries = 5`
and `retry_delay = 10` still performs exactly 3 attempts with inter-attempt
delays 2 and 4 — the decorator's hard-coded schedule, not the configured
one — before the failure propagates. -/
theorem retry_config_ignored :
    (DataFetcher.max_retries ⟨5, 10⟩ = 5 ∧ DataFetcher.retry_delay ⟨5, 10⟩ = 10) ∧
    (retryCall oFailAll.listAttempt retryConf).attempts = 3 ∧
    (retryCall oFailAll.listAttempt retryConf).delays = [2, 4] ∧
    fetch_stock_list ⟨5, 10⟩ oFailAll = .error () ∧
    (3 : Nat) ≠ 5 ∧ (2 : Nat) ≠ 10 := by
  refine ⟨⟨rfl, rfl⟩, ?_, ?_, rfl, by decide, by decide⟩ <;>
    simp [retryCall, retryConf, retryAux, oFailAll]

/-- `C8` (corrected claim): every provider call is retried on any exception,
but with the decorator's fixed schedule — exactly 3 attempts, delays 2 then
4 (backoff factor 2) — regardless of the constructor's `max_retries` and
`retry_delay`, which are stored and never read; after the attempts are
exhausted the failure propagates to the caller. -/
theorem retry_uses_fixed_schedule (F F' : DataFetcher) (o : Oracle) (today : Int)
    (code : String) (p : Period) (op : Nat → Except Unit (List Instr))
    (hop : ∀ k, op k = .error ()) :
    fetch_stock_list F o = fetch_stock_list F' o ∧
    fetch_stock_prices F o today code p = fetch_stock_prices F' o today code p ∧
    fetch_stock_concepts F o code = fetch_stock_concepts F' o code ∧
    (retryCall op retryConf).result = .error () ∧
    (retryCall op retryConf).attempts = 3 ∧
    (retryCall op retryConf).delays = [2, 4] := by
  have h := retryCall3_allFail op (hop 0) (hop 1) (hop 2)
  exact ⟨rfl, rfl, rfl, by rw [h], by rw [h], by rw [h]⟩

/-- Witness for `C8`: the fixed schedule on an always-failing provider. -/
theorem retry_uses_fixed_schedule_witness :
    fetch_stock_list ⟨5, 10⟩ oFailAll = fetch_stock_list ⟨3, 5⟩ oFailAll ∧
    fetch_stock_prices ⟨5, 10⟩ oFailAll 9 "600000" .all =
      fetch_stock_prices ⟨3, 5⟩ oFailAll 9 "600000" .all ∧
    fetch_stock_concepts ⟨5, 10⟩ oFailAll "600000" =
      fetch_stock_concepts ⟨3, 5⟩ oFailAll "600000" ∧
    (retryCall oFailAll.listAttempt retryConf).result = .error () ∧
    (retryCall oFailAll.listAttempt retryConf).attempts = 3 ∧
    (retryCall oFailAll.listAttempt retryConf).delays = [2, 4] :=
  retry_uses_fixed_schedule ⟨5, 10⟩ ⟨3, 5⟩ oFailAll 9 "600000" .all
    oFailAll.listAttempt (fun _ => rfl)

/-! ## Fatal-path lemmas (claim C1) -/

/-- `C1` (corrected claim): if the primary instrument-list fetch exhausts its
three retry attempts, no instrument, price or concept rows are written in
either mode — but only the incremental run reports failure (`False`); the
full (non-incremental) run returns `True`, because `update_all_data`
swallows the exception and `download_all_stocks_data` then reports success. -/
theorem fatal_list_fetch_writes_nothing (o : Oracle) (db : DB) (today : Int)
    (p : Period) (h : ∀ k, k < 3 → o.listAttempt k = .error ()) :
    download_all_stocks_data o today p false db = (true, { db := db }) ∧
    download_all_stocks_data o today p true db = (false, { db := db }) := by
  have hfail : fetch_stock_list defaultFetcher o = .error () := by
    have := retryCall3_allFail o.listAttempt (h 0 (by decide)) (h 1 (by decide))
      (h 2 (by decide))
    simp [fetch_stock_list, this]
  constructor
  · simp [download_all_stocks_data, update_all_data, hfail]
  · simp [download_all_stocks_data, hfail]

/-- Witness for `C1`: the always-failing provider on the empty database. -/
theorem fatal_list_fetch_writes_nothing_witness :
    download_all_stocks_data oFailAll 9 .all false dbEmpty = (true, { db := dbEmpty }) ∧
    download_all_stocks_data oFailAll 9 .all true dbEmpty = (false, { db := dbEmpty }) :=
  fatal_list_fetch_writes_nothing oFailAll dbEmpty 9 .all (fun _ _ => rfl)

/-- `C1` counterexample: with every instrument-list attempt raising, the
full-mode run still yields `true` — a truthy completion status — refuting
the claim that every run reports failure on the fatal path (the database is
indeed left untouched). -/
theorem fatal_list_fetch_full_mode_reports_success :
    (download_all_stocks_data oFailAll 9 .all false dbEmpty).1 = true ∧
    (download_all_stocks_data oFailAll 9 .all false dbEmpty).2.db = dbEmpty := by
  constructor <;> rfl

/-! ## Run-summary counting lemmas -/

theorem priceBranch_counts (o : Oracle) (today : Int) (p : Period)
    (st : RunState) (code : String) :
    (priceBranch o today p st code).success = st.success ∧
    (priceBranch o today p st code).failed = st.failed := by
  unfold priceBranch
  rcases fetch_stock_prices defaultFetcher o today code p with _ | f
  · exact ⟨rfl, rfl⟩
  · simp only []
    split
    · exact ⟨rfl, rfl⟩
    · rcases h : save_stock_prices f { st with
        trace := st.trace ++ [Event.priceReq code (resolveRange today p).1
          (resolveRange today p).2] }.db with _ | db2 <;> simp [h]

theorem conceptBranch_counts (o : Oracle) (st : RunState) (code : String) :
    (conceptBranch o st code).success = st.success ∧
    (conceptBranch o st code).failed = st.failed := by
  unfold conceptBranch
  rcases fetch_stock_concepts defaultFetcher o code with _ | rows
  · exact ⟨rfl, rfl⟩
  · simp only []
    split
    · exact ⟨rfl, rfl⟩
    · rcases h : save_stock_concepts rows { st with
        trace := st.trace ++ [Event.conceptReq code] }.db with _ | db2 <;> simp [h]

/-- Every full-mode iteration ends at `success_count += 1`; the fetch and
save failures are absorbed by the inner handlers, so the outer handler that
would increment `failed_count` never fires. -/
theorem stepFull_counts (o : Oracle) (today : Int) (p : Period)
    (st : RunState) (code : String) :
    (stepFull o today p st code).success = st.success + 1 ∧
    (stepFull o today p st code).failed = st.failed := by
  have h1 := priceBranch_counts o today p st code
  have h2 := conceptBranch_counts o (priceBranch o today p st code) code
  exact ⟨by simp [stepFull, h2.1, h1.1], by simp [stepFull, h2.2, h1.2]⟩

theorem stepIncr_counts (o : Oracle) (today : Int) (latest : List (String × Int))
    (p : Period) (st : RunState) (code : String) :
    (stepIncr o today latest p st code).success = st.success + 1 ∧
    (stepIncr o today latest p st code).failed = st.failed := by
  rcases h : lookupCode latest code with _ | w
  · have h1 := priceBranch_counts o today p st code
    have h2 := conceptBranch_counts o (priceBranch o today p st code) code
    exact ⟨by simp [stepIncr, h, h2.1, h1.1], by simp [stepIncr, h, h2.2, h1.2]⟩
  · by_cases hw : w + 1 ≤ today
    · have h1 := priceBranch_counts o today (Period.custom (w + 1) today) st code
      have h2 := conceptBranch_counts o
        (priceBranch o today (Period.custom (w + 1) today) st code) code
      exact ⟨by simp [stepIncr, h, hw, h2.1, h1.1], by simp [stepIncr, h, hw, h2.2, h1.2]⟩
    · have h2 := conceptBranch_counts o st code
      exact ⟨by simp [stepIncr, h, hw, h2.1], by simp [stepIncr, h, hw, h2.2]⟩

theorem foldl_stepFull_counts (o : Oracle) (today : Int) (p : Period)
    (cs : List String) (st : RunState) :
    (cs.foldl (stepFull o today p) st).success = st.success + cs.length ∧
    (cs.foldl (stepFull o today p) st).failed = st.failed := by
  induction cs generalizing st with
  | nil => simp
  | cons c cs ih =>
    have h := stepFull_counts o today p st c
    have h2 := ih (stepFull o today p st c)
    constructor
    · simp only [List.foldl_cons, List.length_cons]
      rw [h2.1, h.1]; omega
    · simp only [List.foldl_cons]
      rw [h2.2, h.2]

theorem foldl_stepIncr_counts (o : Oracle) (today : Int)
    (latest : List (String × Int)) (p : Period) (cs : List String) (st : RunState) :
    (cs.foldl (stepIncr o today latest p) st).success = st.success + cs.length ∧
    (cs.foldl (stepIncr o today latest p) st).failed = st.failed := by
  induction cs generalizing st with
  | nil => simp
  | cons c cs ih =>
    have h := stepIncr_counts o today latest p st c
    have h2 := ih (stepIncr o today latest p st c)
    constructor
    · simp only [List.foldl_cons, List.length_cons]
      rw [h2.1, h.1]; omega
    · simp only [List.foldl_cons]
      rw [h2.2, h.2]

/-! ## Trace lemmas -/

theorem priceBranch_trace (o : Oracle) (today : Int) (p : Period)
    (st : RunState) (code : String) :
    (priceBranch o today p st code).trace =
      st.trace ++ [Event.priceReq code (resolveRange today p).1 (resolveRange today p).2] := by
  unfold priceBranch
  rcases fetch_stock_prices defaultFetcher o today code p with _ | f
  · rfl
  · simp only []
    split
    · rfl
    · rcases h : save_stock_prices f { st with
        trace := st.trace ++ [Event.priceReq code (resolveRange today p).1
          (resolveRange today p).2] }.db with _ | db2 <;> simp [h]

theorem conceptBranch_trace (o : Oracle) (st : RunState) (code : String) :
    (conceptBranch o st code).trace = st.trace ++ [Event.conceptReq code] := by
  unfold conceptBranch
  rcases fetch_stock_concepts defaultFetcher o code with _ | rows
  · rfl
  · simp only []
    split
    · rfl
    · rcases h : save_stock_concepts rows { st with
        trace := st.trace ++ [Event.conceptReq code] }.db with _ | db2 <;> simp [h]

theorem stepFull_trace (o : Oracle) (today : Int) (p : Period)
    (st : RunState) (code : String) :
    (stepFull o today p st code).trace = st.trace ++ stepFullEvents today p code := by
  simp [stepFull, conceptBranch_trace, priceBranch_trace, stepFullEvents]

theorem stepIncr_trace (o : Oracle) (today : Int) (latest : List (String × Int))
    (p : Period) (st : RunState) (code : String) :
    (stepIncr o today latest p st code).trace =
      st.trace ++ stepIncrEvents today latest p code := by
  rcases h : lookupCode latest code with _ | w
  · simp [stepIncr, h, conceptBranch_trace, priceBranch_trace, stepIncrEvents]
  · by_cases hw : w + 1 ≤ today <;>
      simp [stepIncr, h, hw, conceptBranch_trace, priceBranch_trace, stepIncrEvents,
        resolveRange]

theorem foldl_stepIncr_trace (o : Oracle) (today : Int)
    (latest : List (String × Int)) (p : Period) (cs : List String) (st : RunState) :
    (cs.foldl (stepIncr o today latest p) st).trace =
      st.trace ++ (cs.map (stepIncrEvents today latest p)).flatten := by
  induction cs generalizing st with
  | nil => simp
  | cons c cs ih =>
    simp [List.foldl_cons, ih, stepIncr_trace]

/-! ## Database-field preservation lemmas -/

theorem save_stock_concepts_prices (rows : List (String × String)) (db db2 : DB)
    (h : save_stock_concepts rows db = .ok db2) :
    db2.stock_prices = db.stock_prices := by
  unfold save_stock_concepts at h
  split at h
  · cases h; rfl
  · rcases h2 : insertConcepts db.stock_concepts rows with _ | t <;> rw [h2] at h
    · cases h
    · cases h; rfl

theorem conceptBranch_prices (o : Oracle) (st : RunState) (code : String) :
    (conceptBranch o st code).db.stock_prices = st.db.stock_prices := by
  unfold conceptBranch
  rcases fetch_stock_concepts defaultFetcher o code with _ | rows
  · rfl
  · simp only []
    split
    · rfl
    · rcases h : save_stock_concepts rows st.db with _ | db2
      · simp [h]
      · simp [h, save_stock_concepts_prices _ _ _ h]

/-! ## Watermark-resolver lemmas (claim C7) -/

theorem lookupCode_updateMax_self (acc : List (String × Int)) (c : String) (d : Int) :
    lookupCode (updateMax acc c d) c =
      some (match lookupCode acc c with | some m => max m d | none => d) := by
  induction acc with
  | nil => simp [updateMax, lookupCode]
  | cons p rest ih =>
    rcases p with ⟨c', m⟩
    by_cases h : c' = c
    · subst h; simp [updateMax, lookupCode]
    · simp [updateMax, lookupCode, h, ih]

theorem lookupCode_updateMax_ne (acc : List (String × Int)) (c x : String) (d : Int)
    (hx : x ≠ c) :
    lookupCode (updateMax acc c d) x = lookupCode acc x := by
  induction acc with
  | nil => simp [updateMax, lookupCode, Ne.symm hx]
  | cons p rest ih =>
    rcases p with ⟨c', m⟩
    by_cases h : c' = c
    · subst h
      simp [updateMax, lookupCode, Ne.symm hx]
    · simp [updateMax, lookupCode, h, ih]

theorem datesIn_append (rs ts : List PriceRow) (x : String) :
    datesIn (rs ++ ts) x = datesIn rs x ++ datesIn ts x := by
  simp [datesIn, List.filterMap_append]

/-- One `wmStep` keeps the resolver accumulator in agreement with the
stored dates: a missing code has no dates, and a present code maps to a
stored date that bounds all its stored dates. -/
theorem wmStep_agrees (acc : List (String × Int)) (seen : List PriceRow) (r : PriceRow)
    (H : ∀ x, (lookupCode acc x = none → datesIn seen x = []) ∧
      (∀ m, lookupCode acc x = some m →
        m ∈ datesIn seen x ∧ ∀ d ∈ datesIn seen x, d ≤ m)) :
    ∀ x, (lookupCode (wmStep acc r) x = none → datesIn (seen ++ [r]) x = []) ∧
      (∀ m, lookupCode (wmStep acc r) x = some m →
        m ∈ datesIn (seen ++ [r]) x ∧ ∀ d ∈ datesIn (seen ++ [r]) x, d ≤ m) := by
  intro x
  rw [datesIn_append]
  rcases hc : r.code with c | v | _ <;> rcases hd : r.date with v2 | d | _
  case s.i =>
    have hstep : wmStep acc r = updateMax acc c d := by simp [wmStep, hc, hd]
    by_cases hx : x = c
    · subst hx
      have hone : datesIn [r] x = [d] := by simp [datesIn, hc, hd]
      rw [hstep, hone]
      constructor
      · intro hnone
        rw [lookupCode_updateMax_self] at hnone
        cases hnone
      · intro m hm
        rw [lookupCode_updateMax_self] at hm
        rcases hacc : lookupCode acc x with _ | m0 <;> rw [hacc] at hm <;>
          simp only [Option.some.injEq] at hm
        · subst hm
          have hseen := (H x).1 hacc
          rw [hseen]
          exact ⟨by simp, by intro e he; simp at he; omega⟩
        · subst hm
          obtain ⟨hmem, hbnd⟩ := (H x).2 m0 hacc
          constructor
          · rcases max_choice m0 d with h | h <;> rw [h]
            · exact List.mem_append_left _ hmem
            · exact List.mem_append_right _ (by simp)
          · intro e he
            rcases List.mem_append.1 he with h | h
            · exact le_trans (hbnd e h) (le_max_left _ _)
            · simp at h
              subst h
              exact le_max_right _ _
    · have hone : datesIn [r] x = [] := by
        simp [datesIn, hc, hd, Ne.symm hx]
      rw [hstep, hone, lookupCode_updateMax_ne acc c x d hx]
      simpa using H x
  all_goals
    have hstep : wmStep acc r = acc := by simp [wmStep, hc, hd]
    have hone : datesIn [r] x = [] := by simp [datesIn, hc, hd]
    rw [hstep, hone]
    simpa using H x

/-- Folding `wmStep` over further rows keeps the resolver accumulator in
agreement with the stored dates. -/
theorem wm_foldl_agrees (rs : List PriceRow) (acc : List (String × Int))
    (seen : List PriceRow)
    (H : ∀ x, (lookupCode acc x = none → datesIn seen x = []) ∧
      (∀ m, lookupCode acc x = some m →
        m ∈ datesIn seen x ∧ ∀ d ∈ datesIn seen x, d ≤ m)) :
    ∀ x, (lookupCode (rs.foldl wmStep acc) x = none → datesIn (seen ++ rs) x = []) ∧
      (∀ m, lookupCode (rs.foldl wmStep acc) x = some m →
        m ∈ datesIn (seen ++ rs) x ∧ ∀ d ∈ datesIn (seen ++ rs) x, d ≤ m) := by
  induction rs generalizing acc seen with
  | nil => simpa using H
  | cons r rs ih =>
    have h2 := ih (wmStep acc r) (seen ++ [r]) (wmStep_agrees acc seen r H)
    simpa [List.append_assoc] using h2

theorem stepIncrEvents_no_watermark (today : Int) (latest : List (String × Int))
    (p : Period) (c : String) (e : Event) (he : e ∈ stepIncrEvents today latest p c) :
    isWatermark e = false := by
  rcases e with _ | ⟨c', s', e'⟩ | c'
  · exfalso
    unfold stepIncrEvents at he
    rcases List.mem_append.1 he with h | h
    · rcases hq : lookupCode latest c with _ | w <;> rw [hq] at h
      · simp at h
      · split at h <;> simp at h
    · simp at h
  · rfl
  · rfl

/-- `C7` (spec-modelled): in an incremental run every instrument's watermark
is resolved by the one bulk query issued before the per-instrument loop —
the run's request trace starts with the watermark query and contains no
other — and the resolved value for each code is a stored date for that code
that bounds all of its stored dates (i.e. its maximum), with codes having
no stored rows absent from the result. -/
theorem watermarks_bulk_resolved :
    (∀ (db : DB) (x : String),
      (lookupCode (get_all_stocks_latest_dates db) x = none → datesFor db x = []) ∧
      (∀ m, lookupCode (get_all_stocks_latest_dates db) x = some m →
        m ∈ datesFor db x ∧ ∀ d ∈ datesFor db x, d ≤ m)) ∧
    (∀ (o : Oracle) (today : Int) (p : Period) (db : DB) (cat : List Instr),
      fetch_stock_list defaultFetcher o = .ok cat → cat ≠ [] →
      (download_all_stocks_data o today p true db).2.trace.head? =
        some .watermarkQuery ∧
      (download_all_stocks_data o today p true db).2.trace.countP isWatermark = 1) := by
  constructor
  · intro db x
    have H : ∀ y, (lookupCode ([] : List (String × Int)) y = none →
        datesIn ([] : List PriceRow) y = []) ∧
        (∀ m, lookupCode ([] : List (String × Int)) y = some m →
          m ∈ datesIn ([] : List PriceRow) y ∧
            ∀ d ∈ datesIn ([] : List PriceRow) y, d ≤ m) := by
      intro y
      exact ⟨fun _ => rfl, fun m hm => by cases hm⟩
    have h := wm_foldl_agrees db.stock_prices [] [] H x
    simpa [get_all_stocks_latest_dates, datesFor] using h
  · intro o today p db cat hcat hne
    have hempty : cat.isEmpty = false := by
      rcases cat with _ | ⟨i, cat⟩
      · exact absurd rfl hne
      · rfl
    have hres : (download_all_stocks_data o today p true db).2 =
        ((cat.map Instr.code).foldl
          (stepIncr o today (get_all_stocks_latest_dates
            { db with stock_info := (save_stock_info none cat db.stock_info).2 }) p)
          { db := { db with stock_info := (save_stock_info none cat db.stock_info).2 },
            trace := [Event.watermarkQuery] }) := by
      simp [download_all_stocks_data, hcat, hempty]
    rw [hres]
    rw [foldl_stepIncr_trace]
    constructor
    · rfl
    · have hz : ((cat.map Instr.code).map (stepIncrEvents today
          (get_all_stocks_latest_dates
            { db with stock_info := (save_stock_info none cat db.stock_info).2 }) p)).flatten.countP
          isWatermark = 0 := by
        rw [List.countP_eq_zero]
        intro e he
        rcases List.mem_flatten.1 he with ⟨l, hl, hel⟩
        rcases List.mem_map.1 hl with ⟨c, _, rfl⟩
        simp [stepIncrEvents_no_watermark today _ p c e hel]
      rw [List.countP_append, hz]
      rfl

/-- Witness for `C7`: instrument `A` with stored dates 7 and 9 resolves to
watermark 9, and the incremental run over the one-instrument catalog issues
exactly one watermark query, at the head of its trace. -/
theorem watermarks_bulk_resolved_witness :
    ((9 : Int) ∈ datesFor dbWatermark "A" ∧ ∀ d ∈ datesFor dbWatermark "A", d ≤ 9) ∧
    ((download_all_stocks_data oSingleA 20 .all true dbWatermark).2.trace.head? =
      some .watermarkQuery ∧
     (download_all_stocks_data oSingleA 20 .all true dbWatermark).2.trace.countP
       isWatermark = 1) :=
  ⟨(watermarks_bulk_resolved.1 dbWatermark "A").2 9 rfl,
   watermarks_bulk_resolved.2 oSingleA 20 .all dbWatermark [⟨"A", "a"⟩] rfl
     (by decide)⟩

/-! ## Incremental-window lemmas (claim C4) -/

theorem stepIncrEvents_shape (today : Int) (latest : List (String × Int))
    (p : Period) (c : String) (e : Event) (he : e ∈ stepIncrEvents today latest p c) :
    (∃ s t, e = Event.priceReq c s t) ∨ e = Event.conceptReq c := by
  unfold stepIncrEvents at he
  rcases hq : lookupCode latest c with _ | w
  · rw [hq] at he
    simp at he
    rcases he with h | h
    · exact Or.inl ⟨_, _, h⟩
    · exact Or.inr h
  · rw [hq] at he
    by_cases hw : w + 1 ≤ today
    · rw [show (match some w with
          | some w => if w + 1 ≤ today then [Event.priceReq c (w + 1) today] else []
          | none => [Event.priceReq c (resolveRange today p).1
              (resolveRange today p).2]) =
          if w + 1 ≤ today then [Event.priceReq c (w + 1) today] else [] from rfl,
        if_pos hw] at he
      simp at he
      rcases he with h | h
      · exact Or.inl ⟨_, _, h⟩
      · exact Or.inr h
    · rw [show (match some w with
          | some w => if w + 1 ≤ today then [Event.priceReq c (w + 1) today] else []
          | none => [Event.priceReq c (resolveRange today p).1
              (resolveRange today p).2]) =
          if w + 1 ≤ today then [Event.priceReq c (w + 1) today] else [] from rfl,
        if_neg hw] at he
      simp at he
      exact Or.inr he

theorem stepIncrEvents_filter_ne (today : Int) (latest : List (String × Int))
    (p : Period) (c x : String) (hcx : c ≠ x) :
    (stepIncrEvents today latest p c).filter (isPriceReqFor x) = [] := by
  rw [List.filter_eq_nil_iff]
  intro e he
  rcases stepIncrEvents_shape today latest p c e he with ⟨s, t, rfl⟩ | rfl
  · simp [isPriceReqFor, hcx]
  · simp [isPriceReqFor]

theorem flatten_filter_ne (today : Int) (latest : List (String × Int))
    (p : Period) (x : String) (l : List String) (hx : x ∉ l) :
    ((l.map (stepIncrEvents today latest p)).flatten).filter (isPriceReqFor x) = [] := by
  induction l with
  | nil => rfl
  | cons c l ih =>
    have hcx : c ≠ x := fun h => hx (h ▸ List.mem_cons_self c l)
    have hxl : x ∉ l := fun h => hx (List.mem_cons_of_mem c h)
    simp only [List.map_cons, List.flatten_cons, List.filter_append]
    rw [stepIncrEvents_filter_ne today latest p c x hcx, ih hxl]
    rfl

theorem stepIncrEvents_filter_self (today : Int) (latest : List (String × Int))
    (p : Period) (x : String) (W : Int) (hW : lookupCode latest x = some W) :
    (stepIncrEvents today latest p x).filter (isPriceReqFor x) =
      if W + 1 ≤ today then [Event.priceReq x (W + 1) today] else [] := by
  unfold stepIncrEvents
  rw [hW]
  by_cases hw : W + 1 ≤ today <;> simp [hw, isPriceReqFor]

/-- `C4` (spec-modelled watermark source): in an incremental run, an
instrument `x` whose resolved watermark is `W` has exactly one price request
issued for it, covering exactly the window `W + 1 .. today`, whenever
`W + 1 ≤ today`; and no price request at all when `W + 1` is after today
(in particular when `W` is today).  The run completes with status `True`. -/
theorem incremental_window_correct (o : Oracle) (today : Int) (p : Period)
    (db : DB) (cat : List Instr) (x : String) (W : Int) (l1 l2 : List String)
    (hcat : fetch_stock_list defaultFetcher o = .ok cat)
    (hsplit : cat.map Instr.code = l1 ++ x :: l2)
    (h1 : x ∉ l1) (h2 : x ∉ l2)
    (hW : lookupCode (get_all_stocks_latest_dates db) x = some W) :
    (download_all_stocks_data o today p true db).1 = true ∧
    (download_all_stocks_data o today p true db).2.trace.filter (isPriceReqFor x) =
      if W + 1 ≤ today then [Event.priceReq x (W + 1) today] else [] := by
  have hne : cat ≠ [] := by
    intro h
    rw [h] at hsplit
    exact absurd hsplit.symm (by simp)
  have hempty : cat.isEmpty = false := by
    rcases cat with _ | ⟨i, cat⟩
    · exact absurd rfl hne
    · rfl
  have hWsame : get_all_stocks_latest_dates
      { db with stock_info := (save_stock_info none cat db.stock_info).2 } =
      get_all_stocks_latest_dates db := rfl
  constructor
  · simp [download_all_stocks_data, hcat, hempty]
  · have hres : (download_all_stocks_data o today p true db).2 =
        ((cat.map Instr.code).foldl
          (stepIncr o today (get_all_stocks_latest_dates db) p)
          { db := { db with stock_info := (save_stock_info none cat db.stock_info).2 },
            trace := [Event.watermarkQuery] }) := by
      simp [download_all_stocks_data, hcat, hempty, hWsame]
    rw [hres, foldl_stepIncr_trace, hsplit]
    simp only [List.map_append, List.map_cons, List.flatten_append, List.flatten_cons,
      List.filter_append]
    rw [flatten_filter_ne today _ p x l1 h1, flatten_filter_ne today _ p x l2 h2,
      stepIncrEvents_filter_self today _ p x W hW]
    have hwq : ([Event.watermarkQuery].filter (isPriceReqFor x)) = [] := rfl
    rw [hwq]
    by_cases hw : W + 1 ≤ today <;> simp [hw]

/-- Witness for `C4`: instrument `A` with watermark 9 on day 20 gets exactly
the request for the window `10 .. 20`. -/
theorem incremental_window_correct_witness :
    (download_all_stocks_data oSingleA 20 .all true dbWatermark).1 = true ∧
    (download_all_stocks_data oSingleA 20 .all true dbWatermark).2.trace.filter
      (isPriceReqFor "A") = [Event.priceReq "A" 10 20] := by
  have h := incremental_window_correct oSingleA 20 .all dbWatermark [⟨"A", "a"⟩]
    "A" 9 [] [] rfl rfl (by simp) (by simp) (by decide)
  exact ⟨h.1, by simpa using h.2⟩

/-! ## Concept-cap lemmas (claim C9) -/

/-- `C9`: every successful `fetch_stock_concepts` call returns at most 10
concept rows for the instrument, pairwise-distinct after deduplication, all
tagged with the requested code. -/
theorem concept_cap (F : DataFetcher) (o : Oracle) (code : String)
    (rows : List (String × String))
    (h : fetch_stock_concepts F o code = .ok rows) :
    rows.length ≤ 10 ∧ (rows.map Prod.snd).Nodup ∧ ∀ q ∈ rows, q.1 = code := by
  unfold fetch_stock_concepts at h
  rcases hr : (retryCall (o.conceptAttempt code) retryConf).result with _ | names <;>
    rw [hr] at h
  · cases h
  · cases h
    refine ⟨?_, ?_, ?_⟩
    · simp only [conceptRows, List.length_map, List.length_take]
      omega
    · have : (conceptRows code names).map Prod.snd = names.dedup.take 10 := by
        simp [conceptRows, List.map_map, Function.comp]
      rw [this]
      exact (List.nodup_dedup names).sublist (List.take_sublist _ _)
    · intro q hq
      rcases List.mem_map.1 hq with ⟨n, _, rfl⟩
      rfl

/-- Witness for `C9`: a fetch whose concept feed yields 15 distinct names
returns exactly 10 deduplicated rows. -/
theorem concept_cap_witness :
    ((conceptRows "600000" names15).length ≤ 10 ∧
      ((conceptRows "600000" names15).map Prod.snd).Nodup ∧
      ∀ q ∈ conceptRows "600000" names15, q.1 = "600000") ∧
    names15.Nodup ∧ names15.length = 15 ∧ (conceptRows "600000" names15).length = 10 :=
  ⟨concept_cap defaultFetcher oConcept15 "600000" _ rfl, by decide, by decide, by decide⟩

/-! ## Upsert-semantics lemmas (claim C5) -/

theorem upsertPrice_keysUnique (t : List PriceRow) (q : PriceRow)
    (h : keysUnique t) : keysUnique (upsertPrice t q) := by
  unfold keysUnique upsertPrice
  rw [List.pairwise_append]
  refine ⟨h.sublist (List.filter_sublist _), List.pairwise_singleton _ _, ?_⟩
  intro a ha b hb
  rcases List.mem_singleton.1 hb with rfl
  have hb2 := (List.mem_filter.1 ha).2
  rw [Bool.not_eq_true', decide_eq_false_iff_not] at hb2
  exact hb2

theorem foldl_upsert_keysUnique (rows : List (List Val)) (t : List PriceRow)
    (h : keysUnique t) :
    keysUnique (rows.foldl (fun t r => upsertPrice t (toPriceRow r)) t) := by
  induction rows generalizing t with
  | nil => exact h
  | cons r rows ih => exact ih _ (upsertPrice_keysUnique _ _ h)

theorem save_stock_prices_keysUnique (f : Frame) (db db2 : DB)
    (h : save_stock_prices f db = .ok db2) (hu : keysUnique db.stock_prices) :
    keysUnique db2.stock_prices := by
  unfold save_stock_prices at h
  split at h
  · cases h
    exact hu
  · split at h
    · cases h
      exact foldl_upsert_keysUnique _ _ hu
    · cases h

theorem runSaves_keysUnique (fs : List Frame) (db : DB)
    (hu : keysUnique db.stock_prices) :
    keysUnique ((runSaves fs db).stock_prices) := by
  induction fs generalizing db with
  | nil => exact hu
  | cons f fs ih =>
    rcases h : save_stock_prices f db with _ | db2
    · have heq : runSaves (f :: fs) db = runSaves fs db := by
        simp [runSaves, h]
      rw [heq]
      exact ih db hu
    · have heq : runSaves (f :: fs) db = runSaves fs db2 := by
        simp [runSaves, h]
      rw [heq]
      exact ih db2 (save_stock_prices_keysUnique f db db2 h hu)

/-- `C5`: after any sequence of `save_stock_prices` calls over a table whose
`(code, date)` keys are unique — in particular starting from the freshly
initialised empty table — the keys stay unique; and saving two one-row
batches for the same `(code, date)` key leaves exactly one row with that
key, the one from the later write (last-write-wins, whole-row replacement). -/
theorem price_upsert_semantics :
    (∀ (db : DB) (fs : List Frame), keysUnique db.stock_prices →
      keysUnique ((runSaves fs db).stock_prices)) ∧
    (∀ (db : DB) (q1 q2 : PriceRow), q1.code = q2.code → q1.date = q2.date →
      ((runSaves [frameOf q1, frameOf q2] db).stock_prices).filter
        (fun s => decide (s.code = q2.code ∧ s.date = q2.date)) = [q2]) := by
  constructor
  · intro db fs hu
    exact runSaves_keysUnique fs db hu
  · intro db q1 q2 _ _
    have heq : (runSaves [frameOf q1, frameOf q2] db).stock_prices =
        (upsertPrice (upsertPrice db.stock_prices q1) q2) := rfl
    rw [heq]
    generalize upsertPrice db.stock_prices q1 = X
    unfold upsertPrice
    rw [List.filter_append, List.filter_filter]
    have hnil : X.filter
        (fun s => decide (s.code = q2.code ∧ s.date = q2.date) &&
          !decide (s.code = q2.code ∧ s.date = q2.date)) = [] := by
      rw [List.filter_eq_nil_iff]
      intro a _
      simp
    rw [hnil]
    simp

/-- Witness for `C5`: two writes for `(600000, day 2)` with closes 10 then
11 leave a unique-keyed table whose only row for that key carries close 11. -/
theorem price_upsert_semantics_witness :
    keysUnique ((runSaves [frameOf rowDup1, frameOf rowDup2] dbEmpty).stock_prices) ∧
    ((runSaves [frameOf rowDup1, frameOf rowDup2] dbEmpty).stock_prices).filter
      (fun s => decide (s.code = rowDup2.code ∧ s.date = rowDup2.date)) = [rowDup2] :=
  ⟨price_upsert_semantics.1 dbEmpty [frameOf rowDup1, frameOf rowDup2] List.Pairwise.nil,
   price_upsert_semantics.2 dbEmpty rowDup1 rowDup2 rfl rfl⟩

/-! ## Column-mismatch lemmas (claim C10) -/

theorem save_stock_prices_col_mismatch (f : Frame) (db : DB)
    (h1 : f.rows ≠ []) (h2 : f.cols.length ≠ 8) :
    save_stock_prices f db = .error () := by
  have hempty : f.rows.isEmpty = false := by
    rcases hr : f.rows with _ | ⟨r, rs⟩
    · exact absurd hr h1
    · rfl
  simp [save_stock_prices, hempty, h2]

theorem setColumn_rows_length (f : Frame) (name : String) (v : Val) :
    (setColumn f name v).rows.length = f.rows.length := by
  unfold setColumn
  split <;> simp

theorem foldMissing_rows_length (req : List String) (f : Frame) :
    (req.foldl (fun f c => if f.cols.contains c then f else setColumn f c .null)
      f).rows.length = f.rows.length := by
  induction req generalizing f with
  | nil => rfl
  | cons c req ih =>
    simp only [List.foldl_cons]
    rw [ih]
    by_cases h : f.cols.contains c
    · rw [if_pos h]
    · rw [if_neg h, setColumn_rows_length]

theorem fetch_post_rows_length (c : String) (raw : Frame) :
    (fetch_post c raw).rows.length = raw.rows.length := by
  unfold fetch_post
  split
  · rfl
  · simp only [projectCols, List.length_map]
    rw [foldMissing_rows_length]
    exact setColumn_rows_length _ _ _

/-- `C10` (corrected claim): `save_stock_prices` raises and persists nothing
for every non-empty frame whose column count differs from the eight columns
its INSERT names — in particular for the frames `fetch_stock_prices`
produces when the provider supplies the full column set (`amount` together
with `pct_change` and `turnover_rate`), which carry ten columns.  A frame
with exactly eight columns inserts without error even when one of them is
`pct_change` (see the counterexample for the silently misbound case). -/
theorem price_insert_column_mismatch :
    (∀ (f : Frame) (db : DB), f.rows ≠ [] → f.cols.length ≠ 8 →
      save_stock_prices f db = .error ()) ∧
    (∀ (code : String) (raw : Frame) (db : DB),
      raw.cols = ["日期", "开盘", "最高", "最低", "收盘", "成交量", "成交额",
        "涨跌幅", "换手率"] →
      raw.rows ≠ [] →
      "pct_change" ∈ (fetch_post code raw).cols ∧
      (fetch_post code raw).cols.length = 10 ∧
      save_stock_prices (fetch_post code raw) db = .error ()) := by
  constructor
  · exact save_stock_prices_col_mismatch
  · intro code raw db hcols hrows
    rcases raw with ⟨cols, rows⟩
    simp only [] at hcols
    subst hcols
    rcases rows with _ | ⟨r, rows⟩
    · exact absurd rfl hrows
    · have hc : (fetch_post code
          ⟨["日期", "开盘", "最高", "最低", "收盘", "成交量", "成交额", "涨跌幅",
            "换手率"], r :: rows⟩).cols =
          ["code", "date", "open", "high", "low", "close", "volume", "amount",
           "pct_change", "turnover_rate"] := rfl
      have hlen := fetch_post_rows_length code
        ⟨["日期", "开盘", "最高", "最低", "收盘", "成交量", "成交额", "涨跌幅",
          "换手率"], r :: rows⟩
      have hne : (fetch_post code
          ⟨["日期", "开盘", "最高", "最低", "收盘", "成交量", "成交额", "涨跌幅",
            "换手率"], r :: rows⟩).rows ≠ [] := by
        intro h0
        rw [h0] at hlen
        simp at hlen
      refine ⟨?_, ?_, ?_⟩
      · rw [hc]
        decide
      · rw [hc]
        rfl
      · exact save_stock_prices_col_mismatch _ db hne (by rw [hc]; decide)

/-- Witness for `C10`: the full nine-column provider response post-processes
to a ten-column frame whose save raises. -/
theorem price_insert_column_mismatch_witness :
    ("pct_change" ∈ (fetch_post "600000" rawFull).cols ∧
      (fetch_post "600000" rawFull).cols.length = 10 ∧
      save_stock_prices (fetch_post "600000" rawFull) dbEmpty = .error ()) ∧
    save_stock_prices (fetch_post "600000" rawFull) dbEmpty = .error () :=
  ⟨price_insert_column_mismatch.2 "600000" rawFull dbEmpty rfl (by decide),
   (price_insert_column_mismatch.1 (fetch_post "600000" rawFull) dbEmpty
     (by decide) (by decide))⟩

/-- `C10` counterexample: a provider response carrying `涨跌幅` (pct_change)
but no `成交额` (amount) post-processes to an eight-column frame that still
contains `pct_change`, and `save_stock_prices` accepts it — the insert
succeeds (binding the pct_change value into the `amount` column) instead of
raising, refuting the claim that every frame with these optional columns
raises. -/
theorem pct_change_frame_saves_without_error :
    "pct_change" ∈ (fetch_post "600000" rawNoAmount).cols ∧
    (fetch_post "600000" rawNoAmount).rows ≠ [] ∧
    save_stock_prices (fetch_post "600000" rawNoAmount) dbEmpty =
      .ok { dbEmpty with stock_prices :=
        [⟨.s "600000", .i 5, .i 10, .i 11, .i 9, .i 10, .i 1000, .i 3⟩] } :=
  ⟨by decide, by decide, rfl⟩

/-! ## Failure-isolation lemmas (claim C2) -/

theorem getD_set_self (l : List Val) (i : Nat) (v : Val) (h : i < l.length) :
    (l.set i v).getD i Val.null = v := by
  induction l generalizing i with
  | nil => simp at h
  | cons a l ih =>
    rcases i with _ | i
    · rfl
    · simpa using ih i (by simpa using h)

theorem getD_append_left (l l2 : List Val) (i : Nat) (h : i < l.length) :
    (l ++ l2).getD i Val.null = l.getD i Val.null := by
  induction l generalizing i with
  | nil => simp at h
  | cons a l ih =>
    rcases i with _ | i
    · rfl
    · simpa using ih i (by simpa using h)

theorem getD_append_self (l l2 : List Val) (v : Val) :
    ((l ++ v :: l2)).getD l.length Val.null = v := by
  induction l with
  | nil => rfl
  | cons a l ih => simpa using ih

theorem colIdx_lt_length (cols : List String) (name : String) (h : name ∈ cols) :
    colIdx cols name < cols.length := by
  induction cols with
  | nil => cases h
  | cons a cols ih =>
    by_cases ha : a = name
    · simp [colIdx, List.findIdx_cons, ha]
    · rcases List.mem_cons.1 h with rfl | h2
      · exact absurd rfl ha
      · simpa [colIdx, List.findIdx_cons, ha] using ih h2

theorem colIdx_append_left (cols ex : List String) (name : String) (h : name ∈ cols) :
    colIdx (cols ++ ex) name = colIdx cols name := by
  induction cols with
  | nil => cases h
  | cons a cols ih =>
    by_cases ha : a = name
    · simp [colIdx, List.findIdx_cons, ha]
    · rcases List.mem_cons.1 h with rfl | h2
      · exact absurd rfl ha
      · simpa [colIdx, List.findIdx_cons, ha] using ih h2

theorem colIdx_append_of_not_mem (cols : List String) (name : String)
    (h : name ∉ cols) :
    colIdx (cols ++ [name]) name = cols.length := by
  induction cols with
  | nil => simp [colIdx, List.findIdx_cons]
  | cons a cols ih =>
    have ha : a ≠ name := fun he => h (he ▸ List.mem_cons_self a cols)
    have h2 : name ∉ cols := fun he => h (List.mem_cons_of_mem a he)
    simpa [colIdx, List.findIdx_cons, ha] using ih h2

theorem setColumn_mem (f : Frame) (name : String) (v : Val) :
    name ∈ (setColumn f name v).cols := by
  unfold setColumn
  split
  · next h => exact List.mem_of_elem_eq_true h
  · simp

theorem setColumn_WF (f : Frame) (name : String) (v : Val) (hWF : f.WF) :
    (setColumn f name v).WF := by
  unfold setColumn
  split
  · intro r hr
    rcases List.mem_map.1 hr with ⟨r0, hr0, rfl⟩
    simpa using hWF r0 hr0
  · intro r hr
    rcases List.mem_map.1 hr with ⟨r0, hr0, rfl⟩
    simpa using hWF r0 hr0

theorem setColumn_getD (f : Frame) (name : String) (v : Val) (hWF : f.WF) :
    ∀ r ∈ (setColumn f name v).rows,
      r.getD (colIdx (setColumn f name v).cols name) Val.null = v := by
  intro r hr
  unfold setColumn at hr ⊢
  split at hr
  · next h =>
    rcases List.mem_map.1 hr with ⟨r0, hr0, rfl⟩
    have hmem := List.mem_of_elem_eq_true h
    have hlt : colIdx f.cols name < r0.length := by
      rw [hWF r0 hr0]
      exact colIdx_lt_length f.cols name hmem
    simp only [if_pos h]
    exact getD_set_self r0 _ v hlt
  · next h =>
    rcases List.mem_map.1 hr with ⟨r0, hr0, rfl⟩
    have hnm : name ∉ f.cols := fun hm => h (List.elem_eq_true_of_mem hm)
    simp only [if_neg h]
    rw [colIdx_append_of_not_mem f.cols name hnm, ← hWF r0 hr0]
    exact getD_append_self r0 [] v

/-- Adding the still-missing required columns (as NULL, at the end) moves
neither the position nor the values of an existing column. -/
theorem foldMissing_invariant (req : List String) (f : Frame) (name : String)
    (v : Val) (hmem : name ∈ f.cols) (hWF : f.WF)
    (hval : ∀ r ∈ f.rows, r.getD (colIdx f.cols name) Val.null = v) :
    name ∈ (req.foldl (fun f c => if f.cols.contains c then f
        else setColumn f c .null) f).cols ∧
    (req.foldl (fun f c => if f.cols.contains c then f
        else setColumn f c .null) f).WF ∧
    ∀ r ∈ (req.foldl (fun f c => if f.cols.contains c then f
        else setColumn f c .null) f).rows,
      r.getD (colIdx (req.foldl (fun f c => if f.cols.contains c then f
        else setColumn f c .null) f).cols name) Val.null = v := by
  induction req generalizing f with
  | nil => exact ⟨hmem, hWF, hval⟩
  | cons col req ih =>
    simp only [List.foldl_cons]
    by_cases h : f.cols.contains col
    · rw [if_pos h]
      exact ih f hmem hWF hval
    · rw [if_neg h]
      have hcol : col ∉ f.cols := fun hm => h (List.elem_eq_true_of_mem hm)
      have h1 : name ∈ (setColumn f col Val.null).cols := by
        unfold setColumn
        rw [if_neg h]
        exact List.mem_append_left _ hmem
      have h2 : (setColumn f col Val.null).WF := setColumn_WF f col Val.null hWF
      have h3 : ∀ r ∈ (setColumn f col Val.null).rows,
          r.getD (colIdx (setColumn f col Val.null).cols name) Val.null = v := by
        intro r hr
        unfold setColumn at hr ⊢
        rw [if_neg h] at hr ⊢
        rcases List.mem_map.1 hr with ⟨r0, hr0, rfl⟩
        simp only []
        rw [colIdx_append_left f.cols [col] name hmem]
        have hlt : colIdx f.cols name < r0.length := by
          rw [hWF r0 hr0]
          exact colIdx_lt_length f.cols name hmem
        rw [getD_append_left r0 [Val.null] _ hlt]
        exact hval r0 hr0
      exact ih _ h1 h2 h3

/-- Every row of a post-processed price frame carries the requested
instrument code in its first position: `fetch_stock_prices` assigns the
`code` column and its selection puts `code` first. -/
theorem fetch_post_row_code (c : String) (raw : Frame) (hWF : raw.WF) :
    ∀ ρ ∈ (fetch_post c raw).rows, ρ.getD 0 Val.null = Val.s c := by
  intro ρ hρ
  unfold fetch_post at hρ
  by_cases hre : raw.rows.isEmpty
  · rw [if_pos hre] at hρ
    rw [List.isEmpty_iff] at hre
    rw [hre] at hρ
    cases hρ
  · rw [if_neg hre] at hρ
    have hWF1 : (Frame.mk (renameCols raw.cols) raw.rows).WF := by
      intro r hr
      simpa [renameCols] using hWF r hr
    have hmem2 : "code" ∈ (setColumn ⟨renameCols raw.cols, raw.rows⟩ "code"
        (Val.s c)).cols := setColumn_mem _ _ _
    have hWF2 := setColumn_WF ⟨renameCols raw.cols, raw.rows⟩ "code" (Val.s c) hWF1
    have hval2 := setColumn_getD ⟨renameCols raw.cols, raw.rows⟩ "code" (Val.s c) hWF1
    obtain ⟨hmem3, hWF3, hval3⟩ := foldMissing_invariant required_columns _ "code"
      (Val.s c) hmem2 hWF2 hval2
    simp only [projectCols, List.mem_map] at hρ
    obtain ⟨r, hr, rfl⟩ := hρ
    have hcontains : (setColumn ⟨renameCols raw.cols, raw.rows⟩ "code"
        (Val.s c)).cols.contains "code" = true := List.elem_eq_true_of_mem hmem2
    have hsel : required_columns.filter
        (fun x => (setColumn ⟨renameCols raw.cols, raw.rows⟩ "code"
          (Val.s c)).cols.contains x) = "code" :: (required_columns.tail.filter
        (fun x => (setColumn ⟨renameCols raw.cols, raw.rows⟩ "code"
          (Val.s c)).cols.contains x)) := by
      rw [show required_columns = "code" :: required_columns.tail from rfl]
      rw [List.filter_cons_of_pos hcontains]
      rfl
    rw [hsel]
    simpa using hval3 r hr

theorem mem_upsert_of_key_ne (t : List PriceRow) (p q : PriceRow) (hq : q ∈ t)
    (hne : ¬(q.code = p.code ∧ q.date = p.date)) : q ∈ upsertPrice t p := by
  unfold upsertPrice
  refine List.mem_append_left _ (List.mem_filter.2 ⟨hq, ?_⟩)
  rw [Bool.not_eq_true', decide_eq_false_iff_not]
  exact hne

theorem mem_upsert_elim (t : List PriceRow) (p q : PriceRow)
    (hq : q ∈ upsertPrice t p) :
    (q ∈ t ∧ ¬(q.code = p.code ∧ q.date = p.date)) ∨ q = p := by
  unfold upsertPrice at hq
  rcases List.mem_append.1 hq with h | h
  · have h2 := (List.mem_filter.1 h).2
    rw [Bool.not_eq_true', decide_eq_false_iff_not] at h2
    exact Or.inl ⟨List.mem_of_mem_filter h, h2⟩
  · exact Or.inr (List.mem_singleton.1 h)

theorem foldl_upsert_mem_preserve (rows : List (List Val)) (t : List PriceRow)
    (q : PriceRow) (x : String) (hq : q ∈ t)
    (hrows : ∀ ρ ∈ rows, ρ.getD 0 Val.null = Val.s x)
    (hne : q.code ≠ Val.s x) :
    q ∈ rows.foldl (fun t r => upsertPrice t (toPriceRow r)) t := by
  induction rows generalizing t with
  | nil => exact hq
  | cons r rows ih =>
    simp only [List.foldl_cons]
    apply ih
    · apply mem_upsert_of_key_ne _ _ _ hq
      intro ⟨hcode, _⟩
      have hxc : (toPriceRow r).code = Val.s x := hrows r (List.mem_cons_self r rows)
      rw [hxc] at hcode
      exact hne hcode
    · intro ρ hρ
      exact hrows ρ (List.mem_cons_of_mem r hρ)

theorem foldl_upsert_mem_elim (rows : List (List Val)) (t : List PriceRow)
    (q : PriceRow)
    (hq : q ∈ rows.foldl (fun t r => upsertPrice t (toPriceRow r)) t) :
    q ∈ t ∨ ∃ ρ ∈ rows, q = toPriceRow ρ := by
  induction rows generalizing t with
  | nil => exact Or.inl hq
  | cons r rows ih =>
    rcases ih _ hq with h | ⟨ρ, hρ, rfl⟩
    · rcases mem_upsert_elim _ _ _ h with ⟨h2, _⟩ | rfl
      · exact Or.inl h2
      · exact Or.inr ⟨r, List.mem_cons_self r rows, rfl⟩
    · exact Or.inr ⟨ρ, List.mem_cons_of_mem r hρ, rfl⟩

theorem lastWins_subset_foldl (rows : List (List Val)) (t : List PriceRow)
    (q : PriceRow) (hq : q ∈ lastWins rows) :
    q ∈ rows.foldl (fun t r => upsertPrice t (toPriceRow r)) t := by
  induction rows using List.reverseRecOn with
  | nil => cases hq
  | append_singleton rs r ih =>
    rw [lastWins, List.foldl_append] at hq
    rw [List.foldl_append]
    rcases mem_upsert_elim _ _ _ hq with ⟨h1, h2⟩ | rfl
    · exact mem_upsert_of_key_ne _ _ _ (ih h1) h2
    · exact List.mem_append_right _ (List.mem_singleton.2 rfl)

theorem lastWins_mem_toPriceRow (rows : List (List Val)) (q : PriceRow)
    (hq : q ∈ lastWins rows) : ∃ ρ ∈ rows, q = toPriceRow ρ := by
  rcases foldl_upsert_mem_elim rows [] q hq with h | h
  · cases h
  · exact h

/-- A successful retried call's value comes from one of the attempts. -/
theorem retryAux_ok_attempt {α : Type} (op : Nat → Except Unit α) (v : α) :
    ∀ (t i d b : Nat), (retryAux op i t d b).result = .ok v → ∃ k, op k = .ok v
  | 0, _, _, _, h => by cases h
  | 1, i, _, _, h => ⟨i, by simpa [retryAux] using h⟩
  | t + 2, i, d, b, h => by
    rcases hop : op i with _ | a
    · have h2 : (retryAux op (i + 1) (t + 1) (d * b) b).result = .ok v := by
        simpa [retryAux, hop] using h
      exact retryAux_ok_attempt op v (t + 1) (i + 1) (d * b) b h2
    · have ha : a = v := by simpa [retryAux, hop] using h
      exact ⟨i, by rw [hop, ha]⟩

theorem retryCall_ok_attempt {α : Type} (op : Nat → Except Unit α)
    (c : RetryConf) (v : α) (h : (retryCall op c).result = .ok v) :
    ∃ k, op k = .ok v :=
  retryAux_ok_attempt op v c.tries 0 c.delay c.backoff h

theorem fetch_stock_prices_ok (F : DataFetcher) (o : Oracle) (today : Int)
    (x : String) (p : Period) (f : Frame)
    (h : fetch_stock_prices F o today x p = .ok f) :
    ∃ raw, (retryCall (o.priceAttempt x (resolveRange today p)) retryConf).result =
        .ok raw ∧ f = fetch_post x raw := by
  unfold fetch_stock_prices at h
  rcases hr : (retryCall (o.priceAttempt x (resolveRange today p)) retryConf).result
    with _ | raw <;> rw [hr] at h
  · cases h
  · cases h
    exact ⟨raw, rfl, rfl⟩

/-- Every row of a successfully fetched price frame carries the requested
code first, provided the provider returns rectangular frames. -/
theorem fetch_ok_rows_code (o : Oracle) (today : Int) (x : String) (p : Period)
    (f : Frame)
    (hWFo : ∀ y rg k g, o.priceAttempt y rg k = .ok g → g.WF)
    (h : fetch_stock_prices defaultFetcher o today x p = .ok f) :
    ∀ ρ ∈ f.rows, ρ.getD 0 Val.null = Val.s x := by
  obtain ⟨raw, hraw, rfl⟩ := fetch_stock_prices_ok defaultFetcher o today x p f h
  obtain ⟨k, hk⟩ := retryCall_ok_attempt _ retryConf raw hraw
  exact fetch_post_row_code x raw (hWFo x (resolveRange today p) k raw hk)

theorem save_stock_prices_ok_prices (f : Frame) (db db2 : DB)
    (h : save_stock_prices f db = .ok db2) :
    db2.stock_prices = db.stock_prices ∨
    db2.stock_prices =
      f.rows.foldl (fun t r => upsertPrice t (toPriceRow r)) db.stock_prices := by
  unfold save_stock_prices at h
  split at h
  · cases h
    exact Or.inl rfl
  · split at h
    · cases h
      exact Or.inr rfl
    · cases h

theorem save_stock_prices_ok_of (f : Frame) (db : DB) (h1 : f.rows ≠ [])
    (h2 : f.cols.length = 8) :
    save_stock_prices f db =
      .ok { db with
            stock_prices := f.rows.foldl (fun t r => upsertPrice t (toPriceRow r))
              db.stock_prices } := by
  have hempty : f.rows.isEmpty = false := by
    rcases hr : f.rows with _ | ⟨r, rs⟩
    · exact absurd hr h1
    · rfl
  simp [save_stock_prices, hempty, h2]

theorem priceBranch_preserves_foreign (o : Oracle) (today : Int) (p : Period)
    (st : RunState) (x : String) (q : PriceRow)
    (hWFo : ∀ y rg k g, o.priceAttempt y rg k = .ok g → g.WF)
    (hq : q ∈ st.db.stock_prices) (hne : q.code ≠ Val.s x) :
    q ∈ (priceBranch o today p st x).db.stock_prices := by
  unfold priceBranch
  rcases hf : fetch_stock_prices defaultFetcher o today x p with _ | f
  · simpa using hq
  · simp only []
    split
    · simpa using hq
    · rcases hs : save_stock_prices f st.db with _ | db2
      · simpa [hs] using hq
      · simp only [hs]
        rcases save_stock_prices_ok_prices f st.db db2 hs with hsame | hup
        · rw [hsame]
          exact hq
        · rw [hup]
          exact foldl_upsert_mem_preserve f.rows st.db.stock_prices q x hq
            (fetch_ok_rows_code o today x p f hWFo hf) hne

theorem priceBranch_new_rows (o : Oracle) (today : Int) (p : Period)
    (st : RunState) (x : String) (q : PriceRow)
    (hWFo : ∀ y rg k g, o.priceAttempt y rg k = .ok g → g.WF)
    (hq : q ∈ (priceBranch o today p st x).db.stock_prices) :
    q ∈ st.db.stock_prices ∨ q.code = Val.s x := by
  unfold priceBranch at hq
  rcases hf : fetch_stock_prices defaultFetcher o today x p with _ | f <;>
    rw [hf] at hq
  · exact Or.inl (by simpa using hq)
  · simp only [] at hq
    split at hq
    · exact Or.inl (by simpa using hq)
    · rcases hs : save_stock_prices f st.db with _ | db2 <;>
        simp only [hs] at hq
      · exact Or.inl (by simpa using hq)
      · rcases save_stock_prices_ok_prices f st.db db2 hs with hsame | hup
        · rw [hsame] at hq
          exact Or.inl hq
        · rw [hup] at hq
          rcases foldl_upsert_mem_elim f.rows st.db.stock_prices q hq with h | ⟨ρ, hρ, rfl⟩
          · exact Or.inl h
          · exact Or.inr (fetch_ok_rows_code o today x p f hWFo hf ρ hρ)

theorem priceBranch_error_prices (o : Oracle) (today : Int) (p : Period)
    (st : RunState) (x : String)
    (hf : fetch_stock_prices defaultFetcher o today x p = .error ()) :
    (priceBranch o today p st x).db.stock_prices = st.db.stock_prices := by
  unfold priceBranch
  rw [hf]

theorem stepFull_preserves_foreign (o : Oracle) (today : Int) (p : Period)
    (st : RunState) (x : String) (q : PriceRow)
    (hWFo : ∀ y rg k g, o.priceAttempt y rg k = .ok g → g.WF)
    (hq : q ∈ st.db.stock_prices) (hne : q.code ≠ Val.s x) :
    q ∈ (stepFull o today p st x).db.stock_prices := by
  have h1 := priceBranch_preserves_foreign o today p st x q hWFo hq hne
  have h2 := conceptBranch_prices o (priceBranch o today p st x) x
  show q ∈ (conceptBranch o (priceBranch o today p st x) x).db.stock_prices
  rw [h2]
  exact h1

theorem stepFull_new_rows (o : Oracle) (today : Int) (p : Period)
    (st : RunState) (x : String) (q : PriceRow)
    (hWFo : ∀ y rg k g, o.priceAttempt y rg k = .ok g → g.WF)
    (hq : q ∈ (stepFull o today p st x).db.stock_prices) :
    q ∈ st.db.stock_prices ∨ q.code = Val.s x := by
  have h2 := conceptBranch_prices o (priceBranch o today p st x) x
  have hq2 : q ∈ (priceBranch o today p st x).db.stock_prices := by
    have : q ∈ (conceptBranch o (priceBranch o today p st x) x).db.stock_prices := hq
    rwa [h2] at this
  exact priceBranch_new_rows o today p st x q hWFo hq2

theorem stepFull_error_prices (o : Oracle) (today : Int) (p : Period)
    (st : RunState) (x : String)
    (hf : fetch_stock_prices defaultFetcher o today x p = .error ()) :
    (stepFull o today p st x).db.stock_prices = st.db.stock_prices := by
  show (conceptBranch o (priceBranch o today p st x) x).db.stock_prices = _
  rw [conceptBranch_prices, priceBranch_error_prices o today p st x hf]

theorem stepFull_saves (o : Oracle) (today : Int) (p : Period)
    (st : RunState) (x : String) (f : Frame)
    (hf : fetch_stock_prices defaultFetcher o today x p = .ok f)
    (h1 : f.rows ≠ []) (h2 : f.cols.length = 8) :
    ∀ q ∈ lastWins f.rows, q ∈ (stepFull o today p st x).db.stock_prices := by
  intro q hq
  have hc := conceptBranch_prices o (priceBranch o today p st x) x
  show q ∈ (conceptBranch o (priceBranch o today p st x) x).db.stock_prices
  rw [hc]
  have hempty : f.rows.isEmpty = false := by
    rcases hr : f.rows with _ | ⟨r, rs⟩
    · exact absurd hr h1
    · rfl
  have hsave := save_stock_prices_ok_of f st.db h1 h2
  unfold priceBranch
  rw [hf]
  simp only [hempty, Bool.false_eq_true, if_false, hsave]
  exact lastWins_subset_foldl f.rows st.db.stock_prices q hq

theorem foldl_stepFull_preserves (o : Oracle) (today : Int) (p : Period)
    (cs : List String) (st : RunState) (a : String) (q : PriceRow)
    (hWFo : ∀ y rg k g, o.priceAttempt y rg k = .ok g → g.WF)
    (hq : q ∈ st.db.stock_prices) (hcode : q.code = Val.s a)
    (hcs : ∀ x ∈ cs, x ≠ a) :
    q ∈ ((cs.foldl (stepFull o today p) st).db.stock_prices) := by
  induction cs generalizing st with
  | nil => exact hq
  | cons x cs ih =>
    simp only [List.foldl_cons]
    apply ih
    · apply stepFull_preserves_foreign o today p st x q hWFo hq
      rw [hcode]
      intro hxe
      exact hcs x (List.mem_cons_self x cs) (Val.s.injEq _ _ ▸ hxe).symm
    · intro y hy
      exact hcs y (List.mem_cons_of_mem x hy)

theorem foldl_stepFull_b_nothing (o : Oracle) (today : Int) (p : Period)
    (cs : List String) (st : RunState) (b : String) (q : PriceRow)
    (hWFo : ∀ y rg k g, o.priceAttempt y rg k = .ok g → g.WF)
    (hb : ∀ rg k, o.priceAttempt b rg k = .error ())
    (hq : q ∈ ((cs.foldl (stepFull o today p) st).db.stock_prices))
    (hcode : q.code = Val.s b) :
    q ∈ st.db.stock_prices := by
  induction cs generalizing st with
  | nil => exact hq
  | cons x cs ih =>
    have hq2 : q ∈ (stepFull o today p st x).db.stock_prices := ih _ hq
    by_cases hx : x = b
    · subst hx
      have hferr : fetch_stock_prices defaultFetcher o today x p = .error () := by
        unfold fetch_stock_prices
        rw [retryCall3_allFail _ (hb _ 0) (hb _ 1) (hb _ 2)]
      rwa [stepFull_error_prices o today p st x hferr] at hq2
    · rcases stepFull_new_rows o today p st x q hWFo hq2 with h | h
      · exact h
      · rw [hcode] at h
        exact absurd (Val.s.injEq _ _ ▸ h) (fun he => hx he.symm)

/-- `C2` (corrected claim): when fetching prices for instrument `b` raises
on every retry attempt while `a` (processed earlier) and `c` (processed
later) succeed with well-formed eight-column frames, the run persists `a`'s
and `c`'s data, completes without becoming fatal (status `True`), and
writes nothing for `b` — but `b` is counted in the run summary's success
count: the failed count stays `0`, because the inner handlers absorb the
fetch failure before the counter's handler can see it.  This holds for
every position of `b` in the catalog. -/
theorem failure_isolation (o : Oracle) (today : Int) (p : Period) (db0 : DB)
    (cat : List Instr) (pre post : List String) (a b c : String) (fa fc : Frame)
    (hWFo : ∀ y rg k g, o.priceAttempt y rg k = .ok g → g.WF)
    (hcat : fetch_stock_list defaultFetcher o = .ok cat)
    (hcodes : cat.map Instr.code = pre ++ a :: b :: c :: post)
    (hb : ∀ rg k, o.priceAttempt b rg k = .error ())
    (ha : fetch_stock_prices defaultFetcher o today a p = .ok fa)
    (hfa1 : fa.rows ≠ []) (hfa2 : fa.cols.length = 8)
    (hc : fetch_stock_prices defaultFetcher o today c p = .ok fc)
    (hfc1 : fc.rows ≠ []) (hfc2 : fc.cols.length = 8)
    (hab : a ≠ b) (hac : a ≠ c)
    (hapost : a ∉ post) (hcpost : c ∉ post) :
    (download_all_stocks_data o today p false db0).1 = true ∧
    (download_all_stocks_data o today p false db0).2.failed = 0 ∧
    (download_all_stocks_data o today p false db0).2.success = cat.length ∧
    (∀ q ∈ lastWins fa.rows,
      q ∈ (download_all_stocks_data o today p false db0).2.db.stock_prices) ∧
    (∀ q ∈ lastWins fc.rows,
      q ∈ (download_all_stocks_data o today p false db0).2.db.stock_prices) ∧
    (∀ q ∈ (download_all_stocks_data o today p false db0).2.db.stock_prices,
      q.code = Val.s b → q ∈ db0.stock_prices) := by
  have hne : cat ≠ [] := by
    intro h
    rw [h] at hcodes
    simp at hcodes
  have hempty : cat.isEmpty = false := by
    rcases cat with _ | ⟨i, cat⟩
    · exact absurd rfl hne
    · rfl
  have hres : download_all_stocks_data o today p false db0 =
      (true, (cat.map Instr.code).foldl (stepFull o today p)
        { db := { db0 with
            stock_info := (save_stock_info none cat db0.stock_info).2 } }) := by
    simp [download_all_stocks_data, update_all_data, hcat, hempty]
  rw [hres]
  refine ⟨rfl, ?_, ?_, ?_, ?_, ?_⟩
  · exact (foldl_stepFull_counts o today p _ _).2
  · rw [(foldl_stepFull_counts o today p _ _).1]
    simp
  · intro q hq
    have hcode : q.code = Val.s a := by
      obtain ⟨ρ, hρ, rfl⟩ := lastWins_mem_toPriceRow fa.rows q hq
      exact fetch_ok_rows_code o today a p fa hWFo ha ρ hρ
    rw [hcodes, List.foldl_append]
    simp only [List.foldl_cons]
    apply foldl_stepFull_preserves o today p (b :: c :: post) _ a q hWFo _ hcode
    · intro x hx
      rcases List.mem_cons.1 hx with rfl | hx2
      · exact Ne.symm hab
      · rcases List.mem_cons.1 hx2 with rfl | hx3
        · exact Ne.symm hac
        · exact fun he => hapost (he ▸ hx3)
    · exact stepFull_saves o today p _ a fa ha hfa1 hfa2 q hq
  · intro q hq
    have hcode : q.code = Val.s c := by
      obtain ⟨ρ, hρ, rfl⟩ := lastWins_mem_toPriceRow fc.rows q hq
      exact fetch_ok_rows_code o today c p fc hWFo hc ρ hρ
    have hsplit : pre ++ a :: b :: c :: post = (pre ++ [a, b]) ++ c :: post := by
      simp
    rw [hcodes, hsplit, List.foldl_append]
    simp only [List.foldl_cons]
    apply foldl_stepFull_preserves o today p post _ c q hWFo _ hcode
    · intro x hx
      exact fun he => hcpost (he ▸ hx)
    · exact stepFull_saves o today p _ c fc hc hfc1 hfc2 q hq
  · intro q hq hcode
    exact foldl_stepFull_b_nothing o today p (cat.map Instr.code) _ b q hWFo hb hq hcode

/-- Witness for `C2`: the catalog `[A, B, C]` where every price attempt for
`B` raises; `A`'s data is persisted, the run completes, success counts all
three instruments and nothing is written for `B`. -/
theorem failure_isolation_witness :
    (download_all_stocks_data oABC 9 .all false dbEmpty).1 = true ∧
    (download_all_stocks_data oABC 9 .all false dbEmpty).2.failed = 0 ∧
    (download_all_stocks_data oABC 9 .all false dbEmpty).2.success = 3 ∧
    (∀ q ∈ lastWins (fetch_post "A" (rawPlain 5)).rows,
      q ∈ (download_all_stocks_data oABC 9 .all false dbEmpty).2.db.stock_prices) ∧
    (∀ q ∈ (download_all_stocks_data oABC 9 .all false dbEmpty).2.db.stock_prices,
      q.code = Val.s "B" → q ∈ dbEmpty.stock_prices) := by
  have hwf : ∀ (y : String) (rg : Int × Int) (k : Nat) (g : Frame),
      oABC.priceAttempt y rg k = .ok g → g.WF := by
    intro y rg k g h
    by_cases hy : y = "B"
    · simp [oABC, hy] at h
    · simp [oABC, hy] at h
      subst h
      intro r hr
      simp [rawPlain] at hr
      subst hr
      rfl
  have hb : ∀ (rg : Int × Int) (k : Nat),
      oABC.priceAttempt "B" rg k = .error () := by
    intro rg k
    simp [oABC]
  have h := failure_isolation oABC 9 .all dbEmpty
    [⟨"A", "a"⟩, ⟨"B", "b"⟩, ⟨"C", "c"⟩] [] [] "A" "B" "C"
    (fetch_post "A" (rawPlain 5)) (fetch_post "C" (rawPlain 5))
    hwf rfl rfl hb rfl (by decide) (by decide) rfl (by decide) (by decide)
    (by decide) (by decide) (by simp) (by simp)
  exact ⟨h.1, h.2.1, by simpa using h.2.2.1, h.2.2.2.1, h.2.2.2.2.2⟩

/-- `C2` counterexample: in exactly the scenario the claim describes — a
three-instrument catalog where `B`'s price fetch raises on every attempt
between successful `A` and `C` — the run counts `B` as a success: the
failed count is `0` and the success count is `3`, refuting "B is counted in
the run summary's failed count (not in its success count)". -/
theorem failed_count_stays_zero :
    oABC.priceAttempt "B" (historyFloor, 9) 0 = .error () ∧
    (download_all_stocks_data oABC 9 .all false dbEmpty).2.failed = 0 ∧
    (download_all_stocks_data oABC 9 .all false dbEmpty).2.success = 3 ∧
    (download_all_stocks_data oABC 9 .all false dbEmpty).1 = true := by
  exact ⟨rfl, by decide, by decide, rfl⟩

end Quant
